import Mathlib

/-!
Verification development for the `context` documentation-cache tool.

The Rust sources under `src/` are shallowly embedded here:
  * `src/core/paths.rs`    → `Context.extract_paths`, `Context.validate_path`
  * `src/core/document.rs` → `Context.Document.*`, `Context.hash`
  * `src/core/cache.rs`    → `Context.Cache.sync`
  * `src/core/frontmatter.rs` → `Context.FM.*`
Strings are modelled as `List Char` where character-level reasoning is
needed; the filesystem is modelled as an explicit oracle structure.
-/

namespace Context

/-! ## Character-list utilities shared by the embeddings -/

/-- The backtick character. -/
def tick : Char := Char.ofNat 96

/-- Rust `str::starts_with` on character lists. -/
def isPrefixOfL : List Char → List Char → Bool
  | [], _ => true
  | _ :: _, [] => false
  | a :: as_, b :: bs => a == b && isPrefixOfL as_ bs

/-- Rust `str::contains(pat)`: `pat` occurs as a contiguous substring. -/
def containsSub (pat : List Char) : List Char → Bool
  | [] => isPrefixOfL pat []
  | c :: rest => isPrefixOfL pat (c :: rest) || containsSub pat rest

/-- Byte-order comparison of two character lists (Rust `str` `Ord`,
lexicographic on scalar values, which agrees with UTF-8 byte order). -/
def lexLe : List Char → List Char → Bool
  | [], _ => true
  | _ :: _, [] => false
  | a :: as_, b :: bs =>
    if a.toNat < b.toNat then true
    else if a.toNat = b.toNat then lexLe as_ bs
    else false

/-! ## Path scanner (`src/core/paths.rs`, `extract_paths`) -/

/-- `is_path_like` (paths.rs:120): contains `/` or starts with `./`. -/
def is_path_like (s : List Char) : Bool :=
  s.contains '/' || isPrefixOfL ['.', '/'] s

/-- `normalize_path` (paths.rs:126): strip a leading `./`. -/
def normalize_path (s : List Char) : List Char :=
  if isPrefixOfL ['.', '/'] s then s.drop 2 else s

/-- Split a line at the first backtick: `some (before, after)` when a
backtick exists (`after` excludes it), `none` otherwise.  This models the
inner `for … break` search for the closing backtick in
`extract_backtick_paths` (paths.rs:101). -/
def splitAtTick : List Char → Option (List Char × List Char)
  | [] => none
  | c :: rest =>
    if c = tick then some ([], rest)
    else match splitAtTick rest with
      | some (pre, post) => some (c :: pre, post)
      | none => none

/-- Skip characters until a run of `n` consecutive backticks has been seen
(paths.rs:83–93): returns the remainder after that run, or `[]` when the
line ends first. -/
def skipClose (n : Nat) : Nat → List Char → List Char
  | _, [] => []
  | k, c :: rest =>
    if c = tick then
      if k + 1 = n then rest else skipClose n (k + 1) rest
    else skipClose n 0 rest

/-- Count the leading backticks of a list. -/
def tickRun : List Char → Nat
  | [] => 0
  | c :: rest => if c = tick then tickRun rest + 1 else 0

/-- Drop the leading backticks of a list. -/
def dropTicks : List Char → List Char
  | [] => []
  | c :: rest => if c = tick then dropTicks rest else c :: rest

/-- `extract_backtick_paths` (paths.rs:69–117) with an explicit fuel
argument (one unit per consumed character) so that the function is
structurally recursive and kernel-computable.  A lone backtick pairs with
the next backtick and the enclosed text is a candidate when path-like; a
run of two or more backticks opens a multi-backtick span skipped up to a
matching run of the same length. -/
def extractLineF : Nat → List Char → List (List Char)
  | 0, _ => []
  | _ + 1, [] => []
  | fuel + 1, c :: rest =>
    if c = tick then
      if rest.head? = some tick then
        extractLineF fuel (skipClose (1 + tickRun rest) 0 (dropTicks rest))
      else
        match splitAtTick rest with
        | some (content, after) =>
          (if is_path_like content then [normalize_path content] else []) ++
            extractLineF fuel after
        | none => []
    else extractLineF fuel rest

/-- Candidates found on one line, in scan order. -/
def extractLine (l : List Char) : List (List Char) :=
  extractLineF l.length l

/-- Rust `char::is_whitespace`: the Unicode White_Space property
(U+0009–U+000D, space, NEL, NBSP, Ogham space mark, U+2000–U+200A, line
and paragraph separators, narrow and medium mathematical spaces,
ideographic space). -/
def rustIsWhitespace (c : Char) : Bool :=
  c.toNat = 0x09 || c.toNat = 0x0a || c.toNat = 0x0b || c.toNat = 0x0c ||
    c.toNat = 0x0d || c.toNat = 0x20 || c.toNat = 0x85 || c.toNat = 0xa0 ||
    c.toNat = 0x1680 ||
    (decide (0x2000 ≤ c.toNat) && decide (c.toNat ≤ 0x200a)) ||
    c.toNat = 0x2028 || c.toNat = 0x2029 || c.toNat = 0x202f ||
    c.toNat = 0x205f || c.toNat = 0x3000

/-- Rust `str::trim_start` (Unicode White_Space stripped), used for fence
detection and for the body trim of `extract_frontmatter`. -/
def trimStartL : List Char → List Char
  | [] => []
  | c :: rest => if rustIsWhitespace c then trimStartL rest else c :: rest

/-- A fence line: trimmed content starts with three backticks (paths.rs:49). -/
def isFence (l : List Char) : Bool :=
  isPrefixOfL [tick, tick, tick] (trimStartL l)

/-- The line loop of `extract_paths` (paths.rs:45–61): fold over the lines
with the `in_code_block` flag, collecting candidates in order. -/
def scanLines : Bool → List (List Char) → List (List Char)
  | _, [] => []
  | inCode, l :: rest =>
    if isFence l then scanLines (!inCode) rest
    else if inCode then scanLines inCode rest
    else extractLine l ++ scanLines inCode rest

/-- Strip one trailing `'\r'` (Rust `str::lines` semantics). -/
def stripCR (l : List Char) : List Char :=
  match l.getLast? with
  | some '\x0d' => l.dropLast
  | _ => l

/-- Split a character list at every occurrence of a separator character. -/
def splitOnC (sep : Char) : List Char → List (List Char)
  | [] => [[]]
  | c :: rest =>
    if c = sep then [] :: splitOnC sep rest
    else match splitOnC sep rest with
      | [] => [[c]]
      | l :: ls => (c :: l) :: ls

/-- Rust `str::lines`: newline-separated lines, a final empty segment (from
a trailing newline or an empty input) dropped, `'\r'` stripped per line. -/
def rustLines (s : List Char) : List (List Char) :=
  let segs := splitOnC '\n' s
  let segs := if segs.getLast? = some [] then segs.dropLast else segs
  segs.map stripCR

/-- The byte-order relation as a proposition, for sortedness statements. -/
def pathLe (a b : List Char) : Prop := lexLe a b = true

/-- Insertion into a sorted list. -/
def insertSorted (a : List Char) : List (List Char) → List (List Char)
  | [] => [a]
  | b :: bs => if lexLe a b then a :: b :: bs else b :: insertSorted a bs

/-- Insertion sort by byte order (models `Vec::sort` on `String`s: both
return the unique `lexLe`-sorted permutation of the input). -/
def sortL : List (List Char) → List (List Char)
  | [] => []
  | a :: as_ => insertSorted a (sortL as_)

/-- `extract_paths` (paths.rs:41–66): scan all lines outside fenced code
regions, deduplicate (the Rust `HashSet`) and sort (`Vec::sort`, byte
order).  The Rust function returns the sorted sequence of the distinct
candidates; `sortL` of the deduplicated collection order is that same
sequence. -/
def extract_paths (content : List Char) : List (List Char) :=
  sortL (scanLines false (rustLines content)).dedup

/-- The lines actually scanned by the line loop: non-fence lines reached
with the `in_code_block` flag clear.  Lines inside a fenced region and the
fence delimiter lines themselves are absent. -/
def liveLines : Bool → List (List Char) → List (List Char)
  | _, [] => []
  | inCode, l :: rest =>
    if isFence l then liveLines (!inCode) rest
    else if inCode then liveLines inCode rest
    else l :: liveLines inCode rest

/-! ## Filesystem oracle and path validation (`src/core/paths.rs`, `validate_path`) -/

/-- Validation failure kinds (paths.rs:9–18). -/
inductive PathError
  | Absolute
  | ParentTraversal
  | NotFound
  | IsDirectory
deriving DecidableEq, Repr

/-- Filesystem oracle: regular-file contents by path, and which paths are
directories.  A path exists when it is a regular file or a directory. -/
structure FS where
  files : List Char → Option (List Nat)
  dirs : List Char → Bool

/-- `Path::exists`: a regular file or a directory is present. -/
def FS.existsPath (fs : FS) (p : List Char) : Bool :=
  (fs.files p).isSome || fs.dirs p

/-- `Path::is_dir`. -/
def FS.isDir (fs : FS) (p : List Char) : Bool := fs.dirs p

/-- `std::fs::write` of a document file. -/
def FS.writeFile (fs : FS) (p : List Char) (content : List Nat) : FS :=
  { fs with files := fun q => if q = p then some content else fs.files q }

/-- `Path::join` of a root and a relative path (the candidate never starts
with `/` at the join site).  Joining onto the empty path yields the
relative path itself, as in Rust. -/
def pathJoin (root p : List Char) : List Char :=
  if root = [] then p else root ++ '/' :: p

/-- `validate_path` (paths.rs:139–165): absolute check, then parent
traversal check (both purely on the input string), then `./` stripping,
then existence and directory checks against the filesystem. -/
def validate_path (path : List Char) (root : List Char) (fs : FS) :
    Except PathError (List Char) :=
  if path.head? = some '/' then .error .Absolute
  else if containsSub ['.', '.'] path then .error .ParentTraversal
  else
    let normalized := normalize_path path
    let full := pathJoin root normalized
    if !(fs.existsPath full) then .error .NotFound
    else if fs.isDir full then .error .IsDirectory
    else .ok normalized

/-! ## Content fingerprint (`src/core/document.rs`, `hash`, with the SHA-256
digest of the `sha2` crate implemented from the FIPS 180-4 algorithm) -/

/-- Addition modulo 2^32. -/
def add32 (a b : Nat) : Nat := (a + b) % 4294967296

/-- Right rotation of a 32-bit word. -/
def rotr32 (n x : Nat) : Nat :=
  ((x >>> n) ||| (x <<< (32 - n))) % 4294967296

/-- Bitwise complement of a 32-bit word. -/
def not32 (x : Nat) : Nat := x ^^^ 4294967295

def smallSigma0 (x : Nat) : Nat := rotr32 7 x ^^^ rotr32 18 x ^^^ (x >>> 3)

def smallSigma1 (x : Nat) : Nat := rotr32 17 x ^^^ rotr32 19 x ^^^ (x >>> 10)

def bigSigma0 (x : Nat) : Nat := rotr32 2 x ^^^ rotr32 13 x ^^^ rotr32 22 x

def bigSigma1 (x : Nat) : Nat := rotr32 6 x ^^^ rotr32 11 x ^^^ rotr32 25 x

def chWord (x y z : Nat) : Nat := (x &&& y) ^^^ (not32 x &&& z)

def majWord (x y z : Nat) : Nat := (x &&& y) ^^^ (x &&& z) ^^^ (y &&& z)

/-- SHA-256 round constants (FIPS 180-4, in decimal). -/
def shaK : List Nat :=
  [1116352408, 1899447441, 3049323471, 3921009573, 961987163,
   1508970993, 2453635748, 2870763221, 3624381080, 310598401,
   607225278, 1426881987, 1925078388, 2162078206, 2614888103,
   3248222580, 3835390401, 4022224774, 264347078, 604807628,
   770255983, 1249150122, 1555081692, 1996064986, 2554220882,
   2821834349, 2952996808, 3210313671, 3336571891, 3584528711,
   113926993, 338241895, 666307205, 773529912, 1294757372,
   1396182291, 1695183700, 1986661051, 2177026350, 2456956037,
   2730485921, 2820302411, 3259730800, 3345764771, 3516065817,
   3600352804, 4094571909, 275423344, 430227734, 506948616,
   659060556, 883997877, 958139571, 1322822218, 1537002063,
   1747873779, 1955562222, 2024104815, 2227730452, 2361852424,
   2428436474, 2756734187, 3204031479, 3329325298]

/-- SHA-256 initial hash state (FIPS 180-4, in decimal). -/
def shaH0 : List Nat :=
  [1779033703, 3144134277, 1013904242, 2773480762,
   1359893119, 2600822924, 528734635, 1541459225]

/-- Big-endian 8-byte rendering of a 64-bit length. -/
def be64 (n : Nat) : List Nat :=
  [(n >>> 56) % 256, (n >>> 48) % 256, (n >>> 40) % 256, (n >>> 32) % 256,
   (n >>> 24) % 256, (n >>> 16) % 256, (n >>> 8) % 256, n % 256]

/-- SHA-256 padding: `0x80`, zeros to 56 mod 64, then the bit length. -/
def shaPad (msg : List Nat) : List Nat :=
  msg ++ 0x80 :: List.replicate ((64 - (msg.length + 9) % 64) % 64) 0 ++
    be64 (8 * msg.length)

/-- Split into 64-byte chunks (fuel = list length keeps this structural). -/
def chunks64F : Nat → List Nat → List (List Nat)
  | 0, _ => []
  | _ + 1, [] => []
  | fuel + 1, l => l.take 64 :: chunks64F fuel (l.drop 64)

/-- The 32-bit big-endian word at word index `i` of a chunk. -/
def wordAt (c : List Nat) (i : Nat) : Nat :=
  (c.getD (4 * i) 0) <<< 24 + (c.getD (4 * i + 1) 0) <<< 16 +
    (c.getD (4 * i + 2) 0) <<< 8 + c.getD (4 * i + 3) 0

/-- One message-schedule extension step. -/
def stepW (w : List Nat) : List Nat :=
  w ++ [add32 (add32 (smallSigma1 (w.getD (w.length - 2) 0)) (w.getD (w.length - 7) 0))
          (add32 (smallSigma0 (w.getD (w.length - 15) 0)) (w.getD (w.length - 16) 0))]

/-- Iterate the message-schedule extension. -/
def buildW : Nat → List Nat → List Nat
  | 0, w => w
  | n + 1, w => buildW n (stepW w)

/-- The 64 compression rounds; the state is `[a,b,c,d,e,f,g,h]`. -/
def compressRounds : List (Nat × Nat) → List Nat → List Nat
  | [], st => st
  | (k, w) :: rest, st =>
    let a := st.getD 0 0
    let b := st.getD 1 0
    let c := st.getD 2 0
    let d := st.getD 3 0
    let e := st.getD 4 0
    let f := st.getD 5 0
    let g := st.getD 6 0
    let h := st.getD 7 0
    let t1 :=
      add32 (add32 (add32 h (bigSigma1 e)) (add32 (chWord e f g) k)) w
    let t2 := add32 (bigSigma0 a) (majWord a b c)
    compressRounds rest [add32 t1 t2, a, b, c, add32 d t1, e, f, g]

/-- Process one 64-byte chunk. -/
def processChunk (h : List Nat) (chunk : List Nat) : List Nat :=
  List.zipWith add32 h
    (compressRounds (shaK.zip (buildW 48 ((List.range 16).map (wordAt chunk)))) h)

/-- Big-endian bytes of a list of 32-bit words. -/
def bytesOfWords : List Nat → List Nat
  | [] => []
  | w :: ws =>
    (w >>> 24) % 256 :: (w >>> 16) % 256 :: (w >>> 8) % 256 :: w % 256 ::
      bytesOfWords ws

/-- SHA-256 digest (32 bytes) of a byte sequence. -/
def sha256 (msg : List Nat) : List Nat :=
  bytesOfWords ((chunks64F (shaPad msg).length (shaPad msg)).foldl processChunk shaH0)

/-- The 16 lowercase hexadecimal digit characters. -/
def hexChars : List Char := "0123456789abcdef".data

/-- Two lowercase hex digits of one byte (the per-byte `LowerHex` format). -/
def byteHex (b : Nat) : List Char :=
  [hexChars.getD (b / 16 % 16) '0', hexChars.getD (b % 16) '0']

/-- Lowercase hexadecimal rendering of a byte list. -/
def hexOfBytes : List Nat → List Char
  | [] => []
  | b :: bs => byteHex b ++ hexOfBytes bs

/-- `hash` (document.rs:186–190): first 7 characters of the lowercase hex
rendering of the SHA-256 digest. -/
def hash (content : List Nat) : List Char :=
  (hexOfBytes (sha256 content)).take 7

/-! ## Documents (`src/core/document.rs`) and the frontmatter codec
(`src/core/frontmatter.rs`) -/

/-- Join path components with `/` separators. -/
def joinSlash : List (List Char) → List Char
  | [] => []
  | [c] => c
  | c :: rest => c ++ '/' :: joinSlash rest

/-- The upward walk of `project_root` (document.rs:62–73) on the REVERSED
component list of the document's parent directory: find the nearest
ancestor directory named `.context` and return the components of its own
parent. -/
def findRootRev : List (List Char) → Option (List (List Char))
  | [] => none
  | c :: rest => if c = ".context".data then some rest.reverse else findRootRev rest

/-- `project_root` (document.rs:62–73): walk the document's own location
upward until a directory named `.context` is found; its parent is the
project root.  `none` when no such ancestor exists. -/
def project_root (docPath : List Char) : Option (List Char) :=
  (findRootRev ((splitOnC '/' docPath).dropLast.reverse)).map joinSlash

/-- `resolve_ref_path` (document.rs:76–82): join onto the project root
when found, otherwise fall back to the reference path itself (a relative
path, resolved by the OS against the process working directory). -/
def resolve_ref_path (docPath refPath : List Char) : List Char :=
  match project_root docPath with
  | some root => pathJoin root refPath
  | none => refPath

/-- Document status (models.rs:9–16). -/
inductive Status
  | Valid
  | Stale
  | Orphaned
deriving DecidableEq, Repr

/-- Validation report (models.rs:30–39). -/
structure Validation where
  path : List Char
  status : Status
  changed : List (List Char)
  missing : List (List Char)
deriving DecidableEq, Repr

/-- A document (document.rs:11–24).  `references` models the Rust
`HashMap<String, String>` as its entry list in iteration order; the
claims' conclusions are stated so that they hold for whichever order the
map iterates in. -/
structure Document where
  path : List Char
  slug : List Char
  description : List Char
  references : List (List Char × List Char)
  updated : List Char
  body : List Char
deriving DecidableEq, Repr

/-- The error variants of `ContextError` (error.rs) reachable from the
embedded operations.  `InvalidReferences` carries, per offending document,
its path and its `(path, reason)` pairs. -/
inductive ContextError
  | IoError
  | InvalidDocument (msg : List Char)
  | SyncError (msg : List Char)
  | InvalidReferences (count : Nat)
      (documents : List (List Char × List (List Char × PathError)))
deriving DecidableEq, Repr

/-- The `Display` rendering of the errors above (`thiserror` attributes in
error.rs; the inner OS text of an I/O error is elided). -/
def errDisplay : ContextError → List Char
  | .IoError => "I/O error".data
  | .InvalidDocument m => "Invalid document: ".data ++ m
  | .SyncError m => "Sync error: ".data ++ m
  | .InvalidReferences count _ =>
    "Invalid references in ".data ++ (toString count).data ++ " document(s)".data

/-- The reference loop of `Document::validate` (document.rs:162–179),
threading the accumulated `Validation`.  Reading an existing entry that is
not a regular file (`std::fs::read` failure) aborts with an I/O error. -/
def validateRefs (docPath : List Char) (fs : FS) :
    List (List Char × List Char) → Validation → Except Unit Validation
  | [], acc => .ok acc
  | (refPath, storedHash) :: rest, acc =>
    if fs.existsPath (resolve_ref_path docPath refPath) then
      match fs.files (resolve_ref_path docPath refPath) with
      | none => .error ()
      | some bytes =>
        if hash bytes = storedHash then validateRefs docPath fs rest acc
        else
          validateRefs docPath fs rest
            { acc with
                changed := acc.changed ++ [refPath],
                status := if acc.status = .Orphaned then .Orphaned else .Stale }
    else
      validateRefs docPath fs rest
        { acc with missing := acc.missing ++ [refPath], status := .Orphaned }

/-- `Document::validate` (document.rs:159–182): derive a fresh status
report from the stored references; the document itself is not changed (the
model never returns a modified document). -/
def Document.validate (d : Document) (fs : FS) : Except Unit Validation :=
  validateRefs d.path fs d.references ⟨d.path, .Valid, [], []⟩

/-- A stored reference whose resolved path does not exist. -/
def refMissingB (docPath : List Char) (fs : FS) (pr : List Char × List Char) : Bool :=
  !(fs.existsPath (resolve_ref_path docPath pr.1))

/-- A stored reference whose resolved file exists with a fingerprint
different from the stored one. -/
def refChangedB (docPath : List Char) (fs : FS) (pr : List Char × List Char) : Bool :=
  match fs.files (resolve_ref_path docPath pr.1) with
  | some bytes => if hash bytes = pr.2 then false else true
  | none => false

namespace FM

/-- Modelled from the spec: value escaping of the external `serde_yaml`
codec (§6: a mapping-based serialization format, round-trip-safe for
string/mapping data).  Newlines, colons and backslashes are escaped so
that every encoded value stays on one line and contains no separator. -/
def esc : List Char → List Char
  | [] => []
  | c :: rest =>
    if c = '\\' then '\\' :: '\\' :: esc rest
    else if c = '\n' then '\\' :: 'n' :: esc rest
    else if c = ':' then '\\' :: 'c' :: esc rest
    else c :: esc rest

/-- Modelled from the spec: inverse of `esc`. -/
def unesc : List Char → List Char
  | [] => []
  | c :: rest =>
    if c = '\\' then
      match rest with
      | [] => ['\\']
      | d :: rest2 =>
        (if d = 'n' then '\n' else if d = 'c' then ':' else d) :: unesc rest2
    else c :: unesc rest

/-- One `references` block entry line, `  key: value`. -/
def refLineEnc (pr : List Char × List Char) : List Char :=
  ' ' :: ' ' :: (esc pr.1 ++ ':' :: ' ' :: esc pr.2)

/-- The mapping lines in `serialize`'s insertion order (frontmatter.rs:
94–120): slug, description, references (flow-style empty mapping or a
block of entry lines), updated. -/
def fmLines (d : Document) : List (List Char) :=
  ("slug: ".data ++ esc d.slug) ::
    ("description: ".data ++ esc d.description) ::
      ((if d.references = [] then ["references: \x7b\x7d".data]
        else "references:".data :: d.references.map refLineEnc) ++
        [("updated: ".data ++ esc d.updated)])

/-- Join lines with `'\n'` separators (no trailing newline). -/
def joinLines : List (List Char) → List Char
  | [] => []
  | [l] => l
  | l :: ls => l ++ '\n' :: joinLines ls

/-- Modelled from the spec: the `serde_yaml::to_string` rendering of the
frontmatter mapping, one line per scalar entry, ending with a newline. -/
def yamlEncodeFM (d : Document) : List Char :=
  joinLines (fmLines d) ++ ['\n']

/-- `serialize` (frontmatter.rs:94–123): `---`, the YAML mapping, `---`,
a blank line, then the body. -/
def serialize (d : Document) : List Char :=
  "---\n".data ++ yamlEncodeFM d ++ "---\n\n".data ++ d.body

/-- Rust `str::find(pat)`: index of the first occurrence of a pattern. -/
def findSub (pat : List Char) : List Char → Option Nat
  | [] => if isPrefixOfL pat [] then some 0 else none
  | c :: rest =>
    if isPrefixOfL pat (c :: rest) then some 0
    else (findSub pat rest).map (· + 1)

/-- `extract_frontmatter` (frontmatter.rs:127–144): a leading `---` line,
the text up to the next `\n---\n`, and the leading-whitespace-trimmed
remainder as the body. -/
def extract_frontmatter (content : List Char) : Option (List Char × List Char) :=
  if isPrefixOfL "---\n".data content then
    match findSub "\n---\n".data (content.drop 4) with
    | none => none
    | some i =>
      some ((content.drop 4).take i,
        trimStartL
          (if i + 5 < (content.drop 4).length then (content.drop 4).drop (i + 5)
           else []))
  else none

/-- Split a line at its first colon. -/
def splitAtColon : List Char → Option (List Char × List Char)
  | [] => none
  | c :: rest =>
    if c = ':' then some ([], rest)
    else match splitAtColon rest with
      | some (pre, post) => some (c :: pre, post)
      | none => none

/-- Decode one `key: value` scalar line of the mapping. -/
def decodeScalar (key : List Char) (line : List Char) : Option (List Char) :=
  if isPrefixOfL (key ++ ": ".data) line then
    some (unesc (line.drop (key.length + 2)))
  else none

/-- Decode one `  key: value` entry line of the references block. -/
def decodeRefLine (line : List Char) : Option (List Char × List Char) :=
  match line with
  | ' ' :: ' ' :: l =>
    match splitAtColon l with
    | some (k, ' ' :: v) => some (unesc k, unesc v)
    | _ => none
  | _ => none

/-- Decode all entry lines of the references block. -/
def decodeRefs : List (List Char) → Option (List (List Char × List Char))
  | [] => some []
  | l :: ls =>
    match decodeRefLine l, decodeRefs ls with
    | some pr, some prs => some (pr :: prs)
    | _, _ => none

/-- An indented references-block entry line. -/
def isRefEntryLine (l : List Char) : Bool := isPrefixOfL [' ', ' '] l

/-- Modelled from the spec: decoder half of the external `serde_yaml`
mapping codec, inverse of `yamlEncodeFM` on its image.  `none` models a
YAML parse failure or a missing `slug` field. -/
def yamlDecodeFM (fm : List Char) :
    Option (List Char × List Char × List (List Char × List Char) × List Char) :=
  match splitOnC '\n' fm with
  | sl :: dl :: rl :: rest =>
    match decodeScalar "slug".data sl, decodeScalar "description".data dl with
    | some slug, some desc =>
      if rl = "references:".data then
        match decodeRefs (rest.takeWhile isRefEntryLine),
            rest.dropWhile isRefEntryLine with
        | some refs, [ul] =>
          match decodeScalar "updated".data ul with
          | some upd => some (slug, desc, refs, upd)
          | none => none
        | _, _ => none
      else if rl = "references: \x7b\x7d".data then
        match rest with
        | [ul] =>
          match decodeScalar "updated".data ul with
          | some upd => some (slug, desc, [], upd)
          | none => none
        | _ => none
      else none
    | _, _ => none
  | _ => none

/-- `parse_with_frontmatter` (frontmatter.rs:23–72) over the modelled
codec. -/
def parse_with_frontmatter (path fm body : List Char) : Except ContextError Document :=
  match yamlDecodeFM fm with
  | some (slug, desc, refs, upd) => .ok ⟨path, slug, desc, refs, upd, body⟩
  | none => .error (.InvalidDocument "Invalid frontmatter format".data)

/-- Split a name at its first dot (used reversed for `file_stem`). -/
def splitAtDot : List Char → Option (List Char × List Char)
  | [] => none
  | c :: rest =>
    if c = '.' then some ([], rest)
    else match splitAtDot rest with
      | some (pre, post) => some (c :: pre, post)
      | none => none

/-- Rust `Path::file_stem`: the file name up to its last dot, the whole
name when dotless, a leading dot never counting as an extension
separator; `unknown` when there is no file name. -/
def file_stem (p : List Char) : List Char :=
  match ((splitOnC '/' p).getLast?).getD [] with
  | [] => "unknown".data
  | c :: rest =>
    c :: (match splitAtDot rest.reverse with
          | some (_, revPre) => revPre.reverse
          | none => rest)

/-- `parse_without_frontmatter` (frontmatter.rs:75–91). -/
def parse_without_frontmatter (path content : List Char) : Document :=
  ⟨path, file_stem path, [], [], [], content⟩

/-- `parse` (frontmatter.rs:15–20). -/
def parse (path content : List Char) : Except ContextError Document :=
  match extract_frontmatter content with
  | some (fm, body) => parse_with_frontmatter path fm body
  | none => .ok (parse_without_frontmatter path content)

end FM

/-- Unicode-scalar-value bytes of a string: injective stand-in for the
UTF-8 encoding when writing a document file (contents are only ever
compared for equality). -/
def strBytes (s : List Char) : List Nat := s.map Char.toNat

/-- `Document::save` (document.rs:56–60): serialize and write back to the
backing file. -/
def Document.save (d : Document) (fs : FS) : FS :=
  fs.writeFile d.path (strBytes (FM.serialize d))

/-- The path loop of `Document::sync` (document.rs:126–138): validate each
candidate; a valid one is read and fingerprinted into the new reference
map, an invalid one is collected with its reason.  A read failure of a
validated path aborts with an I/O error (`?` on `std::fs::read`). -/
def syncRefs (root : List Char) (fs : FS) :
    List (List Char) → List (List Char × List Char) → List (List Char × PathError) →
      Except ContextError (List (List Char × List Char) × List (List Char × PathError))
  | [], newRefs, invalid => .ok (newRefs, invalid)
  | p :: rest, newRefs, invalid =>
    match validate_path p root fs with
    | .ok normalized =>
      match fs.files (pathJoin root normalized) with
      | some bytes =>
        syncRefs root fs rest (newRefs ++ [(normalized, hash bytes)]) invalid
      | none => .error .IoError
    | .error reason => syncRefs root fs rest newRefs (invalid ++ [(p, reason)])

/-- `Document::sync` (document.rs:112–156), as a function from the
document and filesystem to the final document (`&mut self`), final
filesystem, and the returned `Result`: scan the body, validate and hash
every candidate; if any is invalid, fail with `InvalidReferences` before
any mutation; otherwise replace the whole reference map, set `updated` to
today's date, and save. -/
def Document.sync (d : Document) (fs : FS) (today : List Char) :
    Document × FS × Except ContextError Unit :=
  match project_root d.path with
  | none => (d, fs, .error (.SyncError "Could not determine project root".data))
  | some root =>
    match syncRefs root fs (extract_paths d.body) [] [] with
    | .error e => (d, fs, .error e)
    | .ok (newRefs, invalid) =>
      if invalid = [] then
        let d' := { d with references := newRefs, updated := today }
        (d', d'.save fs, .ok ())
      else (d, fs, .error (.InvalidReferences 1 [(d.path, invalid)]))

/-- `Document::prepare_sync` (document.rs:88–106): phase 1 of the
two-phase sync — collect every validation rejection, touching nothing. -/
def Document.prepare_sync (d : Document) (fs : FS) : List (List Char × PathError) :=
  match project_root d.path with
  | none => [("<unknown>".data, PathError.NotFound)]
  | some root =>
    (extract_paths d.body).foldl
      (fun invalid p =>
        match validate_path p root fs with
        | .ok _ => invalid
        | .error reason => invalid ++ [(p, reason)]) []

/-! ## Cache orchestration (`src/core/cache.rs`) -/

/-- `SyncResult` (models.rs:109–129). -/
structure SyncResult where
  count : Nat
  updated : List (List Char)
  failed : List (List Char)
deriving DecidableEq, Repr

/-- `Cache` (cache.rs:17–30). -/
structure Cache where
  root : List Char
  index : Option Document
  guides : Option Document
  references : Option Document
  documents : List Document

/-- The `None` arm of `Cache::sync` (cache.rs:150–163): sync every
document in order, threading the filesystem; a success bumps `count` and
appends to `updated`, a failure appends the `path: error` rendering to
`failed`, and processing continues with the remaining documents. -/
def syncDocsAll (today : List Char) :
    List Document → FS → SyncResult → List Document × FS × SyncResult
  | [], fs, res => ([], fs, res)
  | d :: rest, fs, res =>
    let out := d.sync fs today
    let res' :=
      match out.2.2 with
      | .ok _ =>
        { res with count := res.count + 1, updated := res.updated ++ [out.1.path] }
      | .error e =>
        { res with failed := res.failed ++ [out.1.path ++ ": ".data ++ errDisplay e] }
    let restOut := syncDocsAll today rest out.2.1 res'
    (out.1 :: restOut.1, restOut.2.1, restOut.2.2)

/-- The `Some` arm of `Cache::sync` (cache.rs:133–148): sync the first
document whose path matches, then stop. -/
def syncDocOne (today : List Char) (p : List Char) :
    List Document → FS → List Document × FS × SyncResult
  | [], fs => ([], fs, ⟨0, [], []⟩)
  | d :: rest, fs =>
    if d.path = p then
      let out := d.sync fs today
      let res : SyncResult :=
        match out.2.2 with
        | .ok _ => ⟨1, [out.1.path], []⟩
        | .error e => ⟨0, [], [out.1.path ++ ": ".data ++ errDisplay e]⟩
      (out.1 :: rest, out.2.1, res)
    else
      let restOut := syncDocOne today p rest fs
      (d :: restOut.1, restOut.2.1, restOut.2.2)

/-- `Cache::sync` (cache.rs:129–167): per-document sync over the batch,
always returning `Ok` with the aggregated result. -/
def Cache.sync (c : Cache) (fs : FS) (today : List Char) (docPath : Option (List Char)) :
    Cache × FS × Except ContextError SyncResult :=
  match docPath with
  | some p =>
    let out := syncDocOne today p c.documents fs
    ({ c with documents := out.1 }, out.2.1, .ok out.2.2)
  | none =>
    let out := syncDocsAll today c.documents fs ⟨0, [], []⟩
    ({ c with documents := out.1 }, out.2.1, .ok out.2.2)

/-- The empty filesystem. -/
def fsEmpty : FS := ⟨fun _ => none, fun _ => false⟩

/-- A document with one stored reference, for the validate witnesses. -/
def docC7 : Document :=
  ⟨"p/.context/d.md".data, "d".data, [], [("a/b.rs".data, "abc1234".data)], [], []⟩

/-- A document whose location has no `.context` ancestor. -/
def docC9 : Document :=
  ⟨"doc.md".data, "doc".data, [], [("src/main.rs".data, "zzzzzzz".data)], [], []⟩

/-- A filesystem containing `src/main.rs` (empty file) under the process
working directory. -/
def fsC9 : FS :=
  ⟨fun p => if p = "src/main.rs".data then some [] else none, fun _ => false⟩

/-- Scenario B document: body mentions `src/main.rs`, which will not
exist. -/
def docB : Document :=
  ⟨".context/guides/missing.md".data, "missing".data, [], [], [],
   "See `src/main.rs` for details.".data⟩

/-- Batch scenario: a filesystem where `src/main.rs` exists but
`src/missing.rs` does not. -/
def fsC1 : FS :=
  { files := fun p =>
      if p = "src/main.rs".data then some (strBytes "fn main() \x7b\x7d".data)
      else none,
    dirs := fun p => decide (p = "src".data) }

/-- Batch scenario: the document with a valid reference. -/
def docValid : Document :=
  ⟨".context/guides/valid.md".data, "valid".data, [], [], [],
   "Uses `src/main.rs`.".data⟩

/-- Batch scenario: the document with a dangling reference. -/
def docInvalid : Document :=
  ⟨".context/guides/invalid.md".data, "invalid".data, [], [],
   [], "Uses `src/missing.rs`.".data⟩

/-- Batch scenario: a cache holding the valid and the invalid document. -/
def cacheC1 : Cache :=
  ⟨".context".data, none, none, none, [docValid, docInvalid]⟩

/-- Round-trip counterexample: a document whose body begins with a
space. -/
def dC8 : Document :=
  ⟨"d.md".data, "a".data, [], [("k".data, "v".data)], [], " x".data⟩

/-- A well-formed document for the round-trip witness. -/
def dRT : Document :=
  ⟨"guides/auth.md".data, "auth".data, "Authentication system".data,
   [("src/auth/mod.rs".data, "8a3b2c1".data), ("src/auth/jwt.rs".data, "f4e5d6a".data)],
   "2025-01-21".data, "# Authentication\n\nThis is the body.".data⟩

/-- A filesystem in which `r/../x` exists, for exercising the purity of
the security checks. -/
def fsC3 : FS :=
  { files := fun p => if p = "r/../x".data then some [1] else none,
    dirs := fun _ => false }

/-! ### Scanner lemmas -/

theorem lexLe_total : ∀ a b : List Char, pathLe a b ∨ pathLe b a := by
  intro a
  induction a with
  | nil => intro b; left; rfl
  | cons x xs ih =>
    intro b
    cases b with
    | nil => right; rfl
    | cons y ys =>
      rcases Nat.lt_trichotomy x.toNat y.toNat with h | h | h
      · left; simp [pathLe, lexLe, h]
      · rcases ih ys with h2 | h2
        · left; simp [pathLe, lexLe, h, Nat.lt_irrefl]; exact h2
        · right; simp [pathLe, lexLe, h.symm, Nat.lt_irrefl]; exact h2
      · right; simp [pathLe, lexLe, h]

theorem lexLe_trans : ∀ a b c : List Char, pathLe a b → pathLe b c → pathLe a c := by
  intro a
  induction a with
  | nil => intro b c _ _; rfl
  | cons x xs ih =>
    intro b c hab hbc
    cases b with
    | nil => simp [pathLe, lexLe] at hab
    | cons y ys =>
      cases c with
      | nil => simp [pathLe, lexLe] at hbc
      | cons z zs =>
        simp only [pathLe, lexLe] at hab hbc ⊢
        by_cases hxy : x.toNat < y.toNat
        · by_cases hyz : y.toNat < z.toNat
          · simp [Nat.lt_trans hxy hyz]
          · by_cases hyz2 : y.toNat = z.toNat
            · simp [(by omega : x.toNat < z.toNat)]
            · simp [hyz, hyz2] at hbc
        · by_cases hxy2 : x.toNat = y.toNat
          · rw [if_neg hxy, if_pos hxy2] at hab
            by_cases hyz : y.toNat < z.toNat
            · simp [(by omega : x.toNat < z.toNat)]
            · by_cases hyz2 : y.toNat = z.toNat
              · rw [if_neg hyz, if_pos hyz2] at hbc
                have hxz : ¬ x.toNat < z.toNat := by omega
                have hxz2 : x.toNat = z.toNat := by omega
                rw [if_neg hxz, if_pos hxz2]
                exact ih ys zs hab hbc
              · simp [hyz, hyz2] at hbc
          · simp [hxy, hxy2] at hab

theorem perm_insertSorted (a : List Char) :
    ∀ l : List (List Char), (insertSorted a l).Perm (a :: l) := by
  intro l
  induction l with
  | nil => rfl
  | cons b bs ih =>
    simp only [insertSorted]
    split
    · rfl
    · exact (ih.cons b).trans (List.Perm.swap a b bs)

theorem perm_sortL : ∀ l : List (List Char), (sortL l).Perm l := by
  intro l
  induction l with
  | nil => rfl
  | cons a as_ ih => exact (perm_insertSorted a (sortL as_)).trans (ih.cons a)

theorem sorted_insertSorted (a : List Char) :
    ∀ l : List (List Char), l.Sorted pathLe → (insertSorted a l).Sorted pathLe := by
  intro l
  induction l with
  | nil => intro _; simp [insertSorted]
  | cons b bs ih =>
    intro hs
    rcases List.sorted_cons.mp hs with ⟨hball, hbs⟩
    simp only [insertSorted]
    split
    · rename_i hab
      refine List.sorted_cons.mpr ⟨?_, hs⟩
      intro x hx
      rcases List.mem_cons.mp hx with rfl | hx
      · exact hab
      · exact lexLe_trans a b x hab (hball x hx)
    · rename_i hab
      have hba : pathLe b a := by
        rcases lexLe_total a b with h | h
        · exact absurd h hab
        · exact h
      refine List.sorted_cons.mpr ⟨?_, ih hbs⟩
      intro x hx
      rcases List.mem_cons.mp ((perm_insertSorted a bs).mem_iff.mp hx) with rfl | h
      · exact hba
      · exact hball x h

theorem sorted_sortL : ∀ l : List (List Char), (sortL l).Sorted pathLe := by
  intro l
  induction l with
  | nil => simp [sortL]
  | cons a as_ ih => exact sorted_insertSorted a (sortL as_) ih

theorem mem_scanLines_iff (p : List Char) :
    ∀ (flag : Bool) (ls : List (List Char)),
      p ∈ scanLines flag ls ↔ ∃ l ∈ liveLines flag ls, p ∈ extractLine l := by
  intro flag ls
  induction ls generalizing flag with
  | nil => simp [scanLines, liveLines]
  | cons l rest ih =>
    simp only [scanLines, liveLines]
    split
    · exact ih _
    · split
      · exact ih _
      · simp only [List.mem_append, List.mem_cons, ih]
        constructor
        · rintro (h | ⟨l', hl', hp⟩)
          · exact ⟨l, Or.inl rfl, h⟩
          · exact ⟨l', Or.inr hl', hp⟩
        · rintro ⟨l', (rfl | hl'), hp⟩
          · exact Or.inl hp
          · exact Or.inr ⟨l', hl', hp⟩

theorem liveLines_not_fence (l : List Char) :
    ∀ (flag : Bool) (ls : List (List Char)),
      l ∈ liveLines flag ls → isFence l = false := by
  intro flag ls
  induction ls generalizing flag with
  | nil => simp [liveLines]
  | cons hd rest ih =>
    simp only [liveLines]
    split
    · exact ih _
    · split
      · exact ih _
      · intro hmem
        rcases List.mem_cons.mp hmem with rfl | h
        · simp_all
        · exact ih _ h

theorem mem_extract_paths_iff (p content : List Char) :
    p ∈ extract_paths content ↔ p ∈ scanLines false (rustLines content) := by
  unfold extract_paths
  rw [(perm_sortL _).mem_iff, List.mem_dedup]

/-- Every candidate produced on a single line is the normalization of some
path-like single-backtick span content. -/
theorem mem_extractLineF_shape (p : List Char) :
    ∀ (fuel : Nat) (l : List Char), p ∈ extractLineF fuel l →
      ∃ c, is_path_like c = true ∧ p = normalize_path c := by
  intro fuel
  induction fuel with
  | zero => intro l h; simp [extractLineF] at h
  | succ fuel ih =>
    intro l h
    match l with
    | [] => simp [extractLineF] at h
    | c :: rest =>
      simp only [extractLineF] at h
      split at h
      · split at h
        · exact ih _ h
        · split at h
          · rename_i content after heq
            rcases List.mem_append.mp h with h1 | h1
            · split at h1
              · rename_i hpl
                rcases List.mem_singleton.mp h1 with rfl
                exact ⟨content, hpl, rfl⟩
              · simp at h1
            · exact ih _ h1
          · simp at h
      · exact ih _ h

theorem compressRounds_length :
    ∀ (l : List (Nat × Nat)) (st : List Nat), st.length = 8 →
      (compressRounds l st).length = 8 := by
  intro l
  induction l with
  | nil => intro st h; exact h
  | cons kw rest ih =>
    intro st h
    cases kw
    exact ih _ rfl

theorem processChunk_length (h : List Nat) (c : List Nat) (hh : h.length = 8) :
    (processChunk h c).length = 8 := by
  unfold processChunk
  rw [List.length_zipWith, compressRounds_length _ _ hh, hh]
  simp

theorem foldl_processChunk_length :
    ∀ (chunks : List (List Nat)) (h : List Nat), h.length = 8 →
      (chunks.foldl processChunk h).length = 8 := by
  intro chunks
  induction chunks with
  | nil => intro h hh; exact hh
  | cons c rest ih =>
    intro h hh
    exact ih _ (processChunk_length h c hh)

theorem bytesOfWords_length : ∀ ws : List Nat, (bytesOfWords ws).length = 4 * ws.length := by
  intro ws
  induction ws with
  | nil => rfl
  | cons w rest ih => simp [bytesOfWords, ih]; omega

theorem sha256_length (msg : List Nat) : (sha256 msg).length = 32 := by
  unfold sha256
  rw [bytesOfWords_length, foldl_processChunk_length _ shaH0 (by decide)]

theorem hexOfBytes_length : ∀ bs : List Nat, (hexOfBytes bs).length = 2 * bs.length := by
  intro bs
  induction bs with
  | nil => rfl
  | cons b rest ih => simp [hexOfBytes, byteHex, ih]; omega

theorem mem_byteHex (c : Char) (b : Nat) (h : c ∈ byteHex b) : c ∈ hexChars := by
  have h16 : ∀ n : Nat, hexChars.getD (n % 16) '0' ∈ hexChars := by
    intro n
    have hlt : n % 16 < hexChars.length := Nat.mod_lt _ (by decide)
    rw [List.getD_eq_getElem hexChars '0' hlt]
    exact List.getElem_mem hlt
  rcases List.mem_cons.mp h with rfl | h2
  · exact h16 _
  · rcases List.mem_cons.mp h2 with rfl | h3
    · exact h16 _
    · simp at h3

theorem mem_hexOfBytes (c : Char) :
    ∀ bs : List Nat, c ∈ hexOfBytes bs → c ∈ hexChars := by
  intro bs
  induction bs with
  | nil => intro h; simp [hexOfBytes] at h
  | cons b rest ih =>
    intro h
    rcases List.mem_append.mp h with h1 | h1
    · exact mem_byteHex c b h1
    · exact ih h1

set_option maxRecDepth 10000 in
/-- Sanity check of the SHA-256 embedding: FIPS 180-4 test vector for the
empty message (digest `e3b0c442…`, truncated by `hash` to 7 characters). -/
theorem sha256_empty_test_vector : hash [] = "e3b0c44".data := by decide

set_option maxRecDepth 10000 in
/-- Sanity check of the SHA-256 embedding: FIPS 180-4 test vector for the
message `"abc"` (digest `ba7816bf…`). -/
theorem sha256_abc_test_vector : hash [0x61, 0x62, 0x63] = "ba7816b".data := by decide

/-- C6: the content fingerprint is the first 7 characters of the lowercase
hexadecimal rendering of the SHA-256 digest of the bytes; it is always
exactly 7 characters, each a lowercase hex digit.  Determinism on equal
byte sequences is inherent: the model is a pure function of the bytes. -/
theorem C6_fingerprint_is_7_char_lowercase_hex_of_sha256 (content : List Nat) :
    hash content = (hexOfBytes (sha256 content)).take 7 ∧
    (hash content).length = 7 ∧
    ∀ c ∈ hash content, c ∈ hexChars := by
  refine ⟨rfl, ?_, ?_⟩
  · unfold hash
    rw [List.length_take, hexOfBytes_length, sha256_length]
    simp
  · intro c hc
    exact mem_hexOfBytes c _ (List.mem_of_mem_take hc)

/-- C3: `validate_path` applies its rules in order with first match
winning; the Absolute and ParentTraversal rejections depend only on the
input string — they hold for every filesystem, in particular `../x` is
rejected as ParentTraversal even on filesystems where `root/../x` exists —
and only past both security checks are the existence and directory checks
consulted, on the `./`-stripped path resolved against the root. -/
theorem C3_validate_path_order_and_purity :
    (∀ (path root : List Char) (fs : FS),
      path.head? = some '/' → validate_path path root fs = .error .Absolute) ∧
    (∀ (path root : List Char) (fs : FS),
      path.head? ≠ some '/' → containsSub ['.', '.'] path = true →
        validate_path path root fs = .error .ParentTraversal) ∧
    (∀ (path root : List Char) (fs : FS),
      path.head? ≠ some '/' → containsSub ['.', '.'] path = false →
        validate_path path root fs =
          if !(fs.existsPath (pathJoin root (normalize_path path))) then
            .error .NotFound
          else if fs.isDir (pathJoin root (normalize_path path)) then
            .error .IsDirectory
          else .ok (normalize_path path)) ∧
    (∀ (root : List Char) (fs : FS),
      validate_path "../x".data root fs = .error .ParentTraversal) := by
  refine ⟨?_, ?_, ?_, ?_⟩
  · intro path root fs h
    simp [validate_path, h]
  · intro path root fs h1 h2
    simp [validate_path, h1, h2]
  · intro path root fs h1 h2
    simp [validate_path, h1, h2]
  · intro root fs
    have h1 : ("../x".data).head? ≠ some '/' := by decide
    have h2 : containsSub ['.', '.'] "../x".data = true := by decide
    simp [validate_path, h1, h2]

/-- Witness: the Absolute and ParentTraversal rules fire at concrete
inputs, on a filesystem where `r/../x` does exist. -/
theorem C3_validate_path_order_and_purity_witness :
    validate_path "/etc/passwd".data "r".data fsC3 = .error .Absolute ∧
    validate_path "../x".data "r".data fsC3 = .error .ParentTraversal ∧
    fsC3.existsPath (pathJoin "r".data (normalize_path "../x".data)) = true :=
  ⟨C3_validate_path_order_and_purity.1 "/etc/passwd".data "r".data fsC3 (by decide),
   C3_validate_path_order_and_purity.2.1 "../x".data "r".data fsC3 (by decide) (by decide),
   by decide⟩

deriving instance DecidableEq for Except

theorem validateRefs_spec (docPath : List Char) (fs : FS) :
    ∀ (refs : List (List Char × List Char)) (acc : Validation),
      (∀ pr ∈ refs, fs.existsPath (resolve_ref_path docPath pr.1) = true →
        (fs.files (resolve_ref_path docPath pr.1)).isSome = true) →
      validateRefs docPath fs refs acc = .ok {
        path := acc.path,
        status :=
          if refs.filter (refMissingB docPath fs) ≠ [] then .Orphaned
          else if refs.filter (refChangedB docPath fs) ≠ [] then
            (if acc.status = .Orphaned then .Orphaned else .Stale)
          else acc.status,
        changed := acc.changed ++ (refs.filter (refChangedB docPath fs)).map Prod.fst,
        missing := acc.missing ++ (refs.filter (refMissingB docPath fs)).map Prod.fst } := by
  intro refs
  induction refs with
  | nil =>
    intro acc _
    simp [validateRefs]
  | cons pr rest ih =>
    obtain ⟨refPath, storedHash⟩ := pr
    intro acc hio
    have hiorest : ∀ pr ∈ rest,
        fs.existsPath (resolve_ref_path docPath pr.1) = true →
          (fs.files (resolve_ref_path docPath pr.1)).isSome = true :=
      fun pr h => hio pr (List.mem_cons_of_mem _ h)
    by_cases hex : fs.existsPath (resolve_ref_path docPath refPath) = true
    · have hsome : (fs.files (resolve_ref_path docPath refPath)).isSome = true :=
        hio (refPath, storedHash) (List.mem_cons_self _ _) hex
      obtain ⟨bytes, hbytes⟩ := Option.isSome_iff_exists.mp hsome
      have hm : refMissingB docPath fs (refPath, storedHash) = false := by
        simp [refMissingB, hex]
      by_cases hh : hash bytes = storedHash
      · have hstep : validateRefs docPath fs ((refPath, storedHash) :: rest) acc =
            validateRefs docPath fs rest acc := by
          simp [validateRefs, hex, hbytes, hh]
        have hc : refChangedB docPath fs (refPath, storedHash) = false := by
          simp [refChangedB, hbytes, hh]
        have hfm : List.filter (refMissingB docPath fs) ((refPath, storedHash) :: rest)
            = List.filter (refMissingB docPath fs) rest := by
          rw [List.filter_cons_of_neg]
          simp [hm]
        have hfc : List.filter (refChangedB docPath fs) ((refPath, storedHash) :: rest)
            = List.filter (refChangedB docPath fs) rest := by
          rw [List.filter_cons_of_neg]
          simp [hc]
        rw [hstep, ih acc hiorest, hfm, hfc]
      · have hstep : validateRefs docPath fs ((refPath, storedHash) :: rest) acc =
            validateRefs docPath fs rest
              { acc with
                  changed := acc.changed ++ [refPath],
                  status := if acc.status = .Orphaned then .Orphaned else .Stale } := by
          simp [validateRefs, hex, hbytes, hh]
        have hc : refChangedB docPath fs (refPath, storedHash) = true := by
          simp [refChangedB, hbytes, hh]
        rw [hstep, ih _ hiorest]
        simp only [List.filter_cons, hm, hc, if_true, if_false, cond_true, cond_false]
        refine congrArg Except.ok ?_
        have hbump : ∀ s : Status,
            (if (if s = Status.Orphaned then Status.Orphaned else Status.Stale)
                = Status.Orphaned then Status.Orphaned else Status.Stale) =
              (if s = Status.Orphaned then Status.Orphaned else Status.Stale) := by
          intro s; cases s <;> simp
        cases hrm : rest.filter (refMissingB docPath fs) with
        | cons a as_ => simp [List.map_cons, List.append_assoc]
        | nil =>
          cases hrc : rest.filter (refChangedB docPath fs) with
          | cons a as_ => simp [hbump, List.append_assoc]
          | nil => simp [List.append_assoc]
    · have hexf : fs.existsPath (resolve_ref_path docPath refPath) = false := by
        simpa using hex
      have hm : refMissingB docPath fs (refPath, storedHash) = true := by
        simp [refMissingB, hexf]
      have hfnone : fs.files (resolve_ref_path docPath refPath) = none := by
        have := hexf
        unfold FS.existsPath at this
        rcases hf : fs.files (resolve_ref_path docPath refPath) with _ | b
        · rfl
        · rw [hf] at this; simp at this
      have hc : refChangedB docPath fs (refPath, storedHash) = false := by
        simp [refChangedB, hfnone]
      have hstep : validateRefs docPath fs ((refPath, storedHash) :: rest) acc =
          validateRefs docPath fs rest
            { acc with
                missing := acc.missing ++ [refPath], status := .Orphaned } := by
        simp [validateRefs, hexf]
      rw [hstep, ih _ hiorest]
      simp only [List.filter_cons, hm, hc, if_true, if_false, cond_true, cond_false]
      refine congrArg Except.ok ?_
      cases hrm : rest.filter (refMissingB docPath fs) with
      | cons a as_ => simp [List.append_assoc]
      | nil =>
        cases hrc : rest.filter (refChangedB docPath fs) with
        | cons a as_ => simp [List.append_assoc]
        | nil => simp [List.append_assoc]

/-- C7: `validate` derives the status from the stored references without
mutating the document (the model returns only a fresh report): a
reference whose resolved path does not exist is recorded in `missing` and
the final status is Orphaned whenever any reference is missing — sticky,
no later reference downgrades it; a reference whose file exists with a
different fingerprint is recorded in `changed` and yields Stale only when
no reference is missing; with neither, the status is Valid.  (Hypothesis:
reading an existing entry succeeds; a read failure instead aborts with a
propagated I/O error.) -/
theorem C7_validate_derives_status (d : Document) (fs : FS)
    (hio : ∀ pr ∈ d.references,
      fs.existsPath (resolve_ref_path d.path pr.1) = true →
        (fs.files (resolve_ref_path d.path pr.1)).isSome = true) :
    d.validate fs = .ok {
      path := d.path,
      status :=
        if d.references.filter (refMissingB d.path fs) ≠ [] then .Orphaned
        else if d.references.filter (refChangedB d.path fs) ≠ [] then .Stale
        else .Valid,
      changed := (d.references.filter (refChangedB d.path fs)).map Prod.fst,
      missing := (d.references.filter (refMissingB d.path fs)).map Prod.fst } := by
  unfold Document.validate
  rw [validateRefs_spec d.path fs d.references _ hio]
  simp

set_option maxRecDepth 4000 in
/-- Witness: a document whose single reference is missing validates to
Orphaned with that reference in `missing`. -/
theorem C7_validate_derives_status_witness :
    docC7.validate fsEmpty =
      .ok ⟨"p/.context/d.md".data, .Orphaned, [], ["a/b.rs".data]⟩ := by
  rw [C7_validate_derives_status docC7 fsEmpty (by decide)]
  decide

set_option maxRecDepth 10000 in
/-- Counterexample to C9: a document whose location has no `.context`
ancestor, with one stored reference whose bare path DOES exist relative
to the process working directory: `validate` does not treat it as
missing — the fingerprint comparison runs and yields Stale, not
Orphaned. -/
theorem C9_counterexample_bare_path_found :
    project_root docC9.path = none ∧
    docC9.references ≠ [] ∧
    docC9.validate fsC9 = .ok ⟨"doc.md".data, .Stale, ["src/main.rs".data], []⟩ := by
  refine ⟨by decide, by decide, by decide⟩

/-- C9 as amended: when the upward walk never finds the `.context`
marker, each reference path is resolved as written (relative to the
process working directory); only when none of those bare paths exists is
every reference treated as missing, and then a document with at least one
reference gets status Orphaned. -/
theorem C9_amended_no_marker_bare_paths (d : Document) (fs : FS)
    (hroot : project_root d.path = none)
    (hne : d.references ≠ [])
    (hbare : ∀ pr ∈ d.references, fs.existsPath pr.1 = false) :
    d.validate fs = .ok ⟨d.path, .Orphaned, [], d.references.map Prod.fst⟩ := by
  have hres : ∀ refPath : List Char, resolve_ref_path d.path refPath = refPath := by
    intro refPath
    unfold resolve_ref_path
    rw [hroot]
  have hio : ∀ pr ∈ d.references,
      fs.existsPath (resolve_ref_path d.path pr.1) = true →
        (fs.files (resolve_ref_path d.path pr.1)).isSome = true := by
    intro pr hpr hex
    rw [hres] at hex
    rw [hbare pr hpr] at hex
    cases hex
  unfold Document.validate
  rw [validateRefs_spec d.path fs d.references _ hio]
  have hfil : d.references.filter (refMissingB d.path fs) = d.references := by
    apply List.filter_eq_self.mpr
    intro pr hpr
    simp [refMissingB, hres, hbare pr hpr]
  have hfnone : ∀ pr ∈ d.references, fs.files pr.1 = none := by
    intro pr hpr
    have h := hbare pr hpr
    unfold FS.existsPath at h
    rcases hf : fs.files pr.1 with _ | b
    · rfl
    · rw [hf] at h; simp at h
  have hcfil : d.references.filter (refChangedB d.path fs) = [] := by
    apply List.filter_eq_nil_iff.mpr
    intro pr hpr
    simp [refChangedB, hres, hfnone pr hpr]
  rw [hfil, hcfil]
  simp [hne]

set_option maxRecDepth 4000 in
/-- Witness for the amended C9: no marker above `doc.md`, the bare path
absent, one reference: Orphaned with that reference missing. -/
theorem C9_amended_no_marker_bare_paths_witness :
    docC9.validate fsEmpty =
      .ok ⟨"doc.md".data, .Orphaned, [], ["src/main.rs".data]⟩ := by
  rw [C9_amended_no_marker_bare_paths docC9 fsEmpty (by decide) (by decide) (by decide)]
  decide

theorem validate_path_ok_facts {p root : List Char} {fs : FS} {n : List Char}
    (h : validate_path p root fs = .ok n) :
    n = normalize_path p ∧ (fs.files (pathJoin root n)).isSome = true := by
  unfold validate_path at h
  dsimp only at h
  split at h
  · cases h
  · split at h
    · cases h
    · split at h
      · cases h
      · rename_i hex
        split at h
        · cases h
        · rename_i hdir
          cases h
          refine ⟨rfl, ?_⟩
          simp only [Bool.not_eq_true', Bool.not_eq_false] at hex
          unfold FS.existsPath at hex
          unfold FS.isDir at hdir
          simp only [Bool.not_eq_true] at hdir
          rw [hdir] at hex
          simpa using hex

/-- The rejections collected by the sync loop, in extraction order. -/
theorem syncRefs_ok (root : List Char) (fs : FS) :
    ∀ (paths : List (List Char)) (newRefs : List (List Char × List Char))
      (invalid : List (List Char × PathError)),
      ∃ refs, syncRefs root fs paths newRefs invalid =
        .ok (refs, invalid ++ paths.filterMap (fun p =>
          match validate_path p root fs with
          | .error r => some (p, r)
          | .ok _ => none)) := by
  intro paths
  induction paths with
  | nil =>
    intro newRefs invalid
    exact ⟨newRefs, by simp [syncRefs]⟩
  | cons p rest ih =>
    intro newRefs invalid
    cases hv : validate_path p root fs with
    | ok n =>
      obtain ⟨bytes, hbytes⟩ :=
        Option.isSome_iff_exists.mp (validate_path_ok_facts hv).2
      obtain ⟨refs, hrefs⟩ := ih (newRefs ++ [(n, hash bytes)]) invalid
      refine ⟨refs, ?_⟩
      simp only [syncRefs, hv, hbytes, hrefs, List.filterMap_cons]
    | error r =>
      obtain ⟨refs, hrefs⟩ := ih newRefs (invalid ++ [(p, r)])
      refine ⟨refs, ?_⟩
      simp only [syncRefs, hv, hrefs, List.filterMap_cons, List.append_assoc,
        List.singleton_append]

/-- C2: when the body mentions a candidate that fails validation with
NotFound, `Document::sync` fails with `InvalidReferences` carrying that
candidate text and reason NotFound for this document, and performs no
mutation: the returned document and the filesystem are exactly the inputs
— `references` unchanged in memory and on disk. -/
theorem C2_sync_invalid_reference_fails_without_mutation
    (d : Document) (fs : FS) (today root : List Char)
    (hroot : project_root d.path = some root)
    (p : List Char) (hp : p ∈ extract_paths d.body)
    (hval : validate_path p root fs = .error .NotFound) :
    ∃ invalid,
      d.sync fs today = (d, fs, .error (.InvalidReferences 1 [(d.path, invalid)])) ∧
      (p, PathError.NotFound) ∈ invalid := by
  obtain ⟨refs, hrefs⟩ := syncRefs_ok root fs (extract_paths d.body) [] []
  have hmem : (p, PathError.NotFound) ∈
      (extract_paths d.body).filterMap (fun p =>
        match validate_path p root fs with
        | .error r => some (p, r)
        | .ok _ => none) := by
    apply List.mem_filterMap.mpr
    exact ⟨p, hp, by rw [hval]⟩
  have hne : (extract_paths d.body).filterMap (fun p =>
      match validate_path p root fs with
      | .error r => some (p, r)
      | .ok _ => none) ≠ [] := List.ne_nil_of_mem hmem
  refine ⟨_, ?_, hmem⟩
  unfold Document.sync
  simp only [hroot]
  simp only [List.nil_append] at hrefs
  rw [hrefs]
  simp [hne]

/-- Witness (scenario B): a document mentioning `src/main.rs` on an empty
filesystem: sync fails with that path and reason NotFound, document and
filesystem untouched. -/
theorem C2_sync_invalid_reference_fails_without_mutation_witness :
    ∃ invalid,
      docB.sync fsEmpty "2025-10-12".data =
        (docB, fsEmpty, .error (.InvalidReferences 1 [(docB.path, invalid)])) ∧
      ("src/main.rs".data, PathError.NotFound) ∈ invalid :=
  C2_sync_invalid_reference_fails_without_mutation docB fsEmpty "2025-10-12".data
    [] (by decide) "src/main.rs".data (by decide) (by decide)

set_option maxRecDepth 10000 in
/-- C1 (code bug): on the batch of `tests/sync.rs`'s
`test_cache_sync_atomic_failure` — one valid document and one document
referencing a missing file — `Cache::sync` over all documents returns
`Ok` (with the offending document merely formatted into `failed`) instead
of failing the whole batch, and the valid sibling IS written: its on-disk
content changes (from absent to a serialized document with a fresh
reference map).  This contradicts the repository's own test, which
asserts `result.is_err()` and that the sibling's references are
unchanged, and the claim's batch-atomicity statement. -/
theorem C1_code_bug_batch_sync_not_atomic :
    (Cache.sync cacheC1 fsC1 "2025-01-02".data none).2.2 =
      .ok ⟨1, [".context/guides/valid.md".data],
        [".context/guides/invalid.md: Invalid references in 1 document(s)".data]⟩ ∧
    ((Cache.sync cacheC1 fsC1 "2025-01-02".data none).2.1).files
      ".context/guides/valid.md".data ≠ none ∧
    fsC1.files ".context/guides/valid.md".data = none := by
  refine ⟨by decide, by decide, by decide⟩

/-- Every document's sync preserves its path. -/
theorem sync_preserves_path (d : Document) (fs : FS) (today : List Char) :
    (d.sync fs today).1.path = d.path := by
  unfold Document.sync
  split
  · rfl
  · split
    · rfl
    · split
      · rfl
      · rfl

theorem syncDocsAll_spec (today : List Char) :
    ∀ (docs : List Document) (fs : FS) (res : SyncResult),
      ∃ u f,
        (syncDocsAll today docs fs res).2.2 =
          ⟨res.count + u.length, res.updated ++ u, res.failed ++ f⟩ ∧
        u.length + f.length = docs.length ∧
        (∀ x ∈ u, x ∈ docs.map Document.path) ∧
        (∀ x ∈ f, ∃ d e, d ∈ docs ∧ x = d.path ++ ": ".data ++ errDisplay e) := by
  intro docs
  induction docs with
  | nil =>
    intro fs res
    refine ⟨[], [], ?_, rfl, by simp, by simp⟩
    simp [syncDocsAll]
  | cons d rest ih =>
    intro fs res
    cases hr : (d.sync fs today).2.2 with
    | ok u0 =>
      obtain ⟨u, f, hout, hlen, hu, hf⟩ :=
        ih (d.sync fs today).2.1
          { res with count := res.count + 1,
                     updated := res.updated ++ [(d.sync fs today).1.path] }
      refine ⟨(d.sync fs today).1.path :: u, f, ?_, ?_, ?_, ?_⟩
      · simp only [syncDocsAll, hr] at hout ⊢
        rw [hout]
        simp only [List.append_assoc, List.singleton_append, List.length_cons]
        congr 1
        omega
      · simp [← hlen]
        omega
      · intro x hx
        rcases List.mem_cons.mp hx with rfl | hx
        · simp [sync_preserves_path]
        · exact List.mem_cons_of_mem _ (hu x hx)
      · intro x hx
        obtain ⟨d', e, hd', hx'⟩ := hf x hx
        exact ⟨d', e, List.mem_cons_of_mem _ hd', hx'⟩
    | error e =>
      obtain ⟨u, f, hout, hlen, hu, hf⟩ :=
        ih (d.sync fs today).2.1
          { res with failed := res.failed ++
              [(d.sync fs today).1.path ++ ": ".data ++ errDisplay e] }
      refine ⟨u, ((d.sync fs today).1.path ++ ": ".data ++ errDisplay e) :: f,
        ?_, ?_, ?_, ?_⟩
      · simp only [syncDocsAll, hr] at hout ⊢
        rw [hout]
        simp [List.append_assoc]
      · simp [← hlen]
        omega
      · intro x hx
        exact List.mem_cons_of_mem _ (hu x hx)
      · intro x hx
        rcases List.mem_cons.mp hx with rfl | hx
        · exact ⟨d, e, List.mem_cons_self _ _, by rw [sync_preserves_path]⟩
        · obtain ⟨d', e', hd', hx'⟩ := hf x hx
          exact ⟨d', e', List.mem_cons_of_mem _ hd', hx'⟩

/-- C10: `Cache::sync` never returns an error value for any scope; for the
all-documents scope the result records one entry per document — `count`
equals the number of `updated` paths, every document lands in exactly one
of `updated` (its path, after a successful individual sync) or `failed`
(a formatted `path: error` string), and a failure does not stop the
remaining documents from being processed (the lengths add up to the whole
batch). -/
theorem C10_cache_sync_always_ok_and_exhaustive :
    (∀ (c : Cache) (fs : FS) (today : List Char) (docPath : Option (List Char)),
      ∃ r, (Cache.sync c fs today docPath).2.2 = .ok r) ∧
    (∀ (c : Cache) (fs : FS) (today : List Char),
      ∃ r, (Cache.sync c fs today none).2.2 = .ok r ∧
        r.count = r.updated.length ∧
        r.updated.length + r.failed.length = c.documents.length ∧
        (∀ x ∈ r.updated, x ∈ c.documents.map Document.path) ∧
        (∀ x ∈ r.failed, ∃ d e, d ∈ c.documents ∧
          x = d.path ++ ": ".data ++ errDisplay e)) := by
  constructor
  · intro c fs today docPath
    cases docPath with
    | some p => exact ⟨_, rfl⟩
    | none => exact ⟨_, rfl⟩
  · intro c fs today
    obtain ⟨u, f, hout, hlen, hu, hf⟩ :=
      syncDocsAll_spec today c.documents fs ⟨0, [], []⟩
    refine ⟨⟨u.length, u, f⟩, ?_, rfl, ?_, ?_, ?_⟩
    · show Except.ok (syncDocsAll today c.documents fs ⟨0, [], []⟩).2.2 = _
      rw [hout]
      simp
    · exact hlen
    · exact hu
    · exact hf

theorem isPrefixOfL_self_append : ∀ p t : List Char, isPrefixOfL p (p ++ t) = true := by
  intro p t
  induction p with
  | nil => rfl
  | cons c rest ih => simp [isPrefixOfL, ih]

theorem esc_nl_free : ∀ s : List Char, '\n' ∉ FM.esc s := by
  intro s
  induction s with
  | nil => simp [FM.esc]
  | cons c rest ih =>
    unfold FM.esc
    split
    · simp [ih]
    · split
      · simp [ih]
      · split
        · simp [ih]
        · rename_i h1 h2 h3
          intro hmem
          rcases List.mem_cons.mp hmem with rfl | hmem
          · exact h2 rfl
          · exact ih hmem

theorem esc_colon_free : ∀ s : List Char, ':' ∉ FM.esc s := by
  intro s
  induction s with
  | nil => simp [FM.esc]
  | cons c rest ih =>
    unfold FM.esc
    split
    · simp [ih]
    · split
      · simp [ih]
      · split
        · simp [ih]
        · rename_i h1 h2 h3
          intro hmem
          rcases List.mem_cons.mp hmem with rfl | hmem
          · exact h3 rfl
          · exact ih hmem

theorem unesc_esc : ∀ s : List Char, FM.unesc (FM.esc s) = s := by
  intro s
  induction s with
  | nil => rfl
  | cons c rest ih =>
    unfold FM.esc
    split
    · rename_i h1
      rw [h1, show FM.unesc ('\\' :: '\\' :: FM.esc rest) = '\\' :: FM.unesc (FM.esc rest)
        from rfl, ih]
    · split
      · rename_i h1 h2
        rw [h2, show FM.unesc ('\\' :: 'n' :: FM.esc rest) = '\n' :: FM.unesc (FM.esc rest)
          from rfl, ih]
      · split
        · rename_i h1 h2 h3
          rw [h3, show FM.unesc ('\\' :: 'c' :: FM.esc rest) = ':' :: FM.unesc (FM.esc rest)
            from rfl, ih]
        · rename_i h1 h2 h3
          have step : FM.unesc (c :: FM.esc rest) = c :: FM.unesc (FM.esc rest) := by
            rw [FM.unesc.eq_def]
            dsimp only
            rw [if_neg h1]
          rw [step, ih]

theorem splitOnC_sep_free (sep : Char) :
    ∀ l : List Char, sep ∉ l → splitOnC sep l = [l] := by
  intro l
  induction l with
  | nil => intro _; rfl
  | cons c rest ih =>
    intro h
    have hc : ¬ c = sep := fun hh => h (hh ▸ List.mem_cons_self c rest)
    have hrest : sep ∉ rest := fun hh => h (List.mem_cons_of_mem _ hh)
    simp only [splitOnC, if_neg hc, ih hrest]

theorem splitOnC_append (sep : Char) :
    ∀ (l r : List Char), sep ∉ l →
      splitOnC sep (l ++ sep :: r) = l :: splitOnC sep r := by
  intro l r
  induction l with
  | nil => intro _; simp [splitOnC]
  | cons c rest ih =>
    intro h
    have hc : ¬ c = sep := fun hh => h (hh ▸ List.mem_cons_self c rest)
    have hrest : sep ∉ rest := fun hh => h (List.mem_cons_of_mem _ hh)
    have step : splitOnC sep (c :: (rest ++ sep :: r)) =
        match splitOnC sep (rest ++ sep :: r) with
        | [] => [[c]]
        | l :: ls => (c :: l) :: ls := by
      simp only [splitOnC, if_neg hc]
    rw [show (c :: rest) ++ sep :: r = c :: (rest ++ sep :: r) from rfl, step, ih hrest]

theorem splitOnC_joinLines :
    ∀ ls : List (List Char), ls ≠ [] → (∀ l ∈ ls, '\n' ∉ l) →
      splitOnC '\n' (FM.joinLines ls) = ls := by
  intro ls
  induction ls with
  | nil => intro h; exact absurd rfl h
  | cons l rest ih =>
    intro _ hnl
    cases rest with
    | nil =>
      show splitOnC '\n' (FM.joinLines [l]) = [l]
      exact splitOnC_sep_free '\n' l (hnl l (List.mem_cons_self _ _))
    | cons l2 rest2 =>
      show splitOnC '\n' (l ++ '\n' :: FM.joinLines (l2 :: rest2)) = l :: l2 :: rest2
      rw [splitOnC_append '\n' l _ (hnl l (List.mem_cons_self _ _))]
      rw [ih (by simp) (fun x hx => hnl x (List.mem_cons_of_mem _ hx))]

theorem chain'_of_nl_free :
    ∀ l : List Char, '\n' ∉ l → l.Chain' (fun a b => a = '\n' → b ≠ '-') := by
  intro l
  induction l with
  | nil => intro _; simp
  | cons c rest ih =>
    intro h
    apply List.chain'_cons'.mpr
    refine ⟨?_, ih (fun hh => h (List.mem_cons_of_mem _ hh))⟩
    intro b _ hc
    exact absurd (hc ▸ List.mem_cons_self c rest) h

theorem joinLines_head :
    ∀ (l : List Char) (rest : List (List Char)) (c : Char) (t : List Char),
      l = c :: t → (FM.joinLines (l :: rest)).head? = some c := by
  intro l rest c t hl
  cases rest with
  | nil => rw [show FM.joinLines [l] = l from rfl, hl]; rfl
  | cons l2 rest2 =>
    rw [show FM.joinLines (l :: l2 :: rest2) = l ++ '\n' :: FM.joinLines (l2 :: rest2)
      from rfl, hl]
    rfl

theorem chain'_joinLines :
    ∀ ls : List (List Char), (∀ l ∈ ls, '\n' ∉ l) →
      (∀ l ∈ ls, ∃ c t, l = c :: t ∧ c ≠ '-') →
      (FM.joinLines ls).Chain' (fun a b => a = '\n' → b ≠ '-') := by
  intro ls
  induction ls with
  | nil => intro _ _; simp [FM.joinLines]
  | cons l rest ih =>
    intro hnl hhead
    cases rest with
    | nil =>
      exact chain'_of_nl_free l (hnl l (List.mem_cons_self _ _))
    | cons l2 rest2 =>
      show List.Chain' _ (l ++ '\n' :: FM.joinLines (l2 :: rest2))
      apply List.chain'_append.mpr
      refine ⟨chain'_of_nl_free l (hnl l (List.mem_cons_self _ _)), ?_, ?_⟩
      · apply List.chain'_cons'.mpr
        constructor
        · intro b hb _
          obtain ⟨c, t, hl2, hc⟩ := hhead l2 (by simp)
          rw [joinLines_head l2 rest2 c t hl2] at hb
          simp at hb
          exact hb ▸ hc
        · exact ih (fun x hx => hnl x (List.mem_cons_of_mem _ hx))
            (fun x hx => hhead x (List.mem_cons_of_mem _ hx))
      · intro x _ y hy hx
        rw [show ('\n' :: FM.joinLines (l2 :: rest2)).head? = some '\n' from rfl] at hy
        simp at hy
        subst hy
        decide

theorem findSub_marker (B : List Char) :
    ∀ A : List Char, A.Chain' (fun a b => a = '\n' → b ≠ '-') →
      FM.findSub "\n---\n".data (A ++ "\n---\n".data ++ B) = some A.length := by
  intro A
  induction A with
  | nil =>
    intro _
    show FM.findSub "\n---\n".data ("\n---\n".data ++ B) = some 0
    rw [show ("\n---\n".data ++ B) = '\n' :: ("---\n".data ++ B) from rfl]
    unfold FM.findSub
    rw [show isPrefixOfL "\n---\n".data ('\n' :: ("---\n".data ++ B))
      = isPrefixOfL "\n---\n".data ("\n---\n".data ++ B) from rfl]
    rw [isPrefixOfL_self_append]
    rfl
  | cons c A' ih =>
    intro hch
    have htail := List.Chain'.tail hch
    have hpre : isPrefixOfL "\n---\n".data ((c :: A') ++ "\n---\n".data ++ B) = false := by
      by_cases hc : c = '\n'
      · subst hc
        cases hA' : A' with
        | nil =>
          rw [show (('\n' :: ([] : List Char)) ++ "\n---\n".data ++ B)
            = '\n' :: '\n' :: ("---\n".data ++ B) from rfl]
          rfl
        | cons d A'' =>
          have hd : d ≠ '-' := by
            rw [hA'] at hch
            exact (List.chain'_cons.mp hch).1 rfl
          rw [show (('\n' :: (d :: A'')) ++ "\n---\n".data ++ B)
            = '\n' :: d :: (A'' ++ "\n---\n".data ++ B) from by simp]
          show (('\n' == '\n') && isPrefixOfL "---\n".data (d :: (A'' ++ "\n---\n".data ++ B))) = false
          have : isPrefixOfL "---\n".data (d :: (A'' ++ "\n---\n".data ++ B))
              = (('-' == d) && isPrefixOfL "--\n".data (A'' ++ "\n---\n".data ++ B)) := rfl
          rw [this]
          have hdne : ('-' == d) = false := by
            cases hbe : ('-' == d)
            · rfl
            · exact absurd (beq_iff_eq.mp hbe).symm hd
          simp [hdne]
      · rw [show ((c :: A') ++ "\n---\n".data ++ B)
          = c :: (A' ++ "\n---\n".data ++ B) from rfl]
        show (('\n' == c) && isPrefixOfL "---\n".data (A' ++ "\n---\n".data ++ B)) = false
        have hcne : ('\n' == c) = false := by
          cases hbe : ('\n' == c)
          · rfl
          · exact absurd (beq_iff_eq.mp hbe).symm hc
        simp [hcne]
    rw [show ((c :: A') ++ "\n---\n".data ++ B)
      = c :: (A' ++ "\n---\n".data ++ B) from rfl]
    unfold FM.findSub
    rw [show isPrefixOfL "\n---\n".data (c :: (A' ++ "\n---\n".data ++ B))
      = isPrefixOfL "\n---\n".data ((c :: A') ++ "\n---\n".data ++ B) from rfl]
    rw [hpre, ih htail]
    rfl

theorem fmLines_nl_free (d : Document) : ∀ l ∈ FM.fmLines d, '\n' ∉ l := by
  intro l hl
  unfold FM.fmLines at hl
  rcases List.mem_cons.mp hl with rfl | hl
  · intro hm
    rcases List.mem_append.mp hm with h | h
    · revert h; decide
    · exact esc_nl_free _ h
  rcases List.mem_cons.mp hl with rfl | hl
  · intro hm
    rcases List.mem_append.mp hm with h | h
    · revert h; decide
    · exact esc_nl_free _ h
  rcases List.mem_append.mp hl with h | h
  · split at h
    · simp at h
      subst h
      decide
    · rcases List.mem_cons.mp h with rfl | h
      · decide
      · obtain ⟨pr, hpr, rfl⟩ := List.mem_map.mp h
        intro hm
        unfold FM.refLineEnc at hm
        rcases List.mem_cons.mp hm with h1 | hm
        · exact absurd h1 (by decide)
        rcases List.mem_cons.mp hm with h1 | hm
        · exact absurd h1 (by decide)
        rcases List.mem_append.mp hm with h2 | h2
        · exact esc_nl_free _ h2
        · rcases List.mem_cons.mp h2 with h3 | h3
          · exact absurd h3 (by decide)
          rcases List.mem_cons.mp h3 with h4 | h4
          · exact absurd h4 (by decide)
          · exact esc_nl_free _ h4
  · simp only [List.mem_singleton] at h
    subst h
    intro hm
    rcases List.mem_append.mp hm with h | h
    · revert h; decide
    · exact esc_nl_free _ h

theorem fmLines_head_not_dash (d : Document) :
    ∀ l ∈ FM.fmLines d, ∃ c t, l = c :: t ∧ c ≠ '-' := by
  intro l hl
  unfold FM.fmLines at hl
  rcases List.mem_cons.mp hl with rfl | hl
  · exact ⟨'s', _, rfl, by decide⟩
  rcases List.mem_cons.mp hl with rfl | hl
  · exact ⟨'d', _, rfl, by decide⟩
  rcases List.mem_append.mp hl with h | h
  · split at h
    · simp at h
      subst h
      exact ⟨'r', _, rfl, by decide⟩
    · rcases List.mem_cons.mp h with rfl | h
      · exact ⟨'r', _, rfl, by decide⟩
      · obtain ⟨pr, hpr, rfl⟩ := List.mem_map.mp h
        exact ⟨' ', _, rfl, by decide⟩
  · simp only [List.mem_singleton] at h
    subst h
    exact ⟨'u', _, rfl, by decide⟩

theorem extract_frontmatter_serialize (d : Document) :
    FM.extract_frontmatter (FM.serialize d) =
      some (FM.joinLines (FM.fmLines d), trimStartL d.body) := by
  have hA := chain'_joinLines (FM.fmLines d) (fmLines_nl_free d) (fmLines_head_not_dash d)
  have hser : FM.serialize d =
      "---\n".data ++ (FM.joinLines (FM.fmLines d) ++ ("\n---\n".data ++ '\n' :: d.body)) := by
    unfold FM.serialize FM.yamlEncodeFM
    simp only [List.append_assoc]
    rfl
  have hdrop4 : (FM.serialize d).drop 4
      = FM.joinLines (FM.fmLines d) ++ ("\n---\n".data ++ '\n' :: d.body) := by
    rw [hser, show (4 : Nat) = ("---\n".data : List Char).length from rfl, List.drop_left]
  have hfind : FM.findSub "\n---\n".data ((FM.serialize d).drop 4)
      = some (FM.joinLines (FM.fmLines d)).length := by
    rw [hdrop4, ← List.append_assoc]
    exact findSub_marker ('\n' :: d.body) _ hA
  have hpre : isPrefixOfL "---\n".data (FM.serialize d) = true := by
    rw [hser]
    exact isPrefixOfL_self_append _ _
  have hplen : ("\n---\n".data : List Char).length = 5 := rfl
  unfold FM.extract_frontmatter
  simp only [hpre, if_true, hfind]
  have htake : ((FM.serialize d).drop 4).take (FM.joinLines (FM.fmLines d)).length
      = FM.joinLines (FM.fmLines d) := by
    rw [hdrop4, List.take_left]
  have hlt : (FM.joinLines (FM.fmLines d)).length + 5 < ((FM.serialize d).drop 4).length := by
    rw [hdrop4]
    simp [List.length_append, hplen]
  have hdrop : ((FM.serialize d).drop 4).drop ((FM.joinLines (FM.fmLines d)).length + 5)
      = '\n' :: d.body := by
    rw [hdrop4, ← List.append_assoc]
    rw [show (FM.joinLines (FM.fmLines d)).length + 5
      = (FM.joinLines (FM.fmLines d) ++ "\n---\n".data).length from by
        rw [List.length_append, hplen]]
    exact List.drop_left _ _
  rw [htake, if_pos hlt, hdrop]
  rfl

theorem decodeScalar_enc (key v : List Char) :
    FM.decodeScalar key ((key ++ ": ".data) ++ FM.esc v) = some v := by
  unfold FM.decodeScalar
  rw [isPrefixOfL_self_append, if_pos rfl]
  rw [show key.length + 2 = (key ++ ": ".data).length from by simp [List.length_append]]
  rw [List.drop_left, unesc_esc]

theorem splitAtColon_enc :
    ∀ (k rest : List Char), ':' ∉ k →
      FM.splitAtColon (k ++ ':' :: rest) = some (k, rest) := by
  intro k rest
  induction k with
  | nil => intro _; simp [FM.splitAtColon]
  | cons c k' ih =>
    intro h
    have hc : ¬ c = ':' := fun hh => h (hh ▸ List.mem_cons_self c k')
    have hk' : ':' ∉ k' := fun hh => h (List.mem_cons_of_mem _ hh)
    show FM.splitAtColon (c :: (k' ++ ':' :: rest)) = some (c :: k', rest)
    unfold FM.splitAtColon
    rw [if_neg hc, ih hk']

theorem decodeRefLine_enc (pr : List Char × List Char) :
    FM.decodeRefLine (FM.refLineEnc pr) = some pr := by
  obtain ⟨k, v⟩ := pr
  show FM.decodeRefLine (' ' :: ' ' :: (FM.esc k ++ ':' :: ' ' :: FM.esc v)) = some (k, v)
  have hsp := splitAtColon_enc (FM.esc k) (' ' :: FM.esc v) (esc_colon_free k)
  simp only [FM.decodeRefLine, hsp, unesc_esc]

theorem decodeRefs_enc :
    ∀ prs : List (List Char × List Char),
      FM.decodeRefs (prs.map FM.refLineEnc) = some prs := by
  intro prs
  induction prs with
  | nil => rfl
  | cons pr rest ih =>
    show FM.decodeRefs (FM.refLineEnc pr :: rest.map FM.refLineEnc) = some (pr :: rest)
    unfold FM.decodeRefs
    rw [decodeRefLine_enc, ih]

theorem isRefEntryLine_enc (pr : List Char × List Char) :
    FM.isRefEntryLine (FM.refLineEnc pr) = true := rfl

theorem refs_takeWhile (upd : List Char) :
    ∀ prs : List (List Char × List Char),
      (prs.map FM.refLineEnc ++ ["updated: ".data ++ FM.esc upd]).takeWhile
          FM.isRefEntryLine = prs.map FM.refLineEnc ∧
      (prs.map FM.refLineEnc ++ ["updated: ".data ++ FM.esc upd]).dropWhile
          FM.isRefEntryLine = ["updated: ".data ++ FM.esc upd] := by
  intro prs
  have hupd : FM.isRefEntryLine ("updated: ".data ++ FM.esc upd) = false := rfl
  induction prs with
  | nil => exact ⟨rfl, rfl⟩
  | cons pr rest ih =>
    constructor
    · show (FM.refLineEnc pr :: (rest.map FM.refLineEnc ++ _)).takeWhile _ = _
      simp only [List.takeWhile_cons, isRefEntryLine_enc, if_true, ih.1]
      rfl
    · show (FM.refLineEnc pr :: (rest.map FM.refLineEnc ++ _)).dropWhile _ = _
      simp only [List.dropWhile_cons, isRefEntryLine_enc, if_true, ih.2]

theorem yamlDecodeFM_enc (d : Document) (h : d.references ≠ []) :
    FM.yamlDecodeFM (FM.joinLines (FM.fmLines d)) =
      some (d.slug, d.description, d.references, d.updated) := by
  have hsplit : splitOnC '\n' (FM.joinLines (FM.fmLines d)) = FM.fmLines d :=
    splitOnC_joinLines _ (by unfold FM.fmLines; simp) (fmLines_nl_free d)
  have hlines : FM.fmLines d =
      ("slug: ".data ++ FM.esc d.slug) ::
        ("description: ".data ++ FM.esc d.description) ::
          "references:".data ::
            (d.references.map FM.refLineEnc ++
              ["updated: ".data ++ FM.esc d.updated]) := by
    unfold FM.fmLines
    rw [if_neg h]
    rfl
  have h1 : FM.decodeScalar "slug".data ("slug: ".data ++ FM.esc d.slug) = some d.slug :=
    decodeScalar_enc "slug".data d.slug
  have h2 : FM.decodeScalar "description".data
      ("description: ".data ++ FM.esc d.description) = some d.description :=
    decodeScalar_enc "description".data d.description
  have h3 := (refs_takeWhile d.updated d.references).1
  have h4 := (refs_takeWhile d.updated d.references).2
  have h5 := decodeRefs_enc d.references
  have h6 : FM.decodeScalar "updated".data ("updated: ".data ++ FM.esc d.updated)
      = some d.updated := decodeScalar_enc "updated".data d.updated
  unfold FM.yamlDecodeFM
  rw [hsplit, hlines]
  simp only [h1, h2, h3, h4, h5, h6]
  simp

/-- Counterexample to C8 as stated: a document whose body begins with a
whitespace character does not round-trip — the decoder's
leading-whitespace trim of the body loses it. -/
theorem C8_roundtrip_counterexample :
    dC8.references ≠ [] ∧
    FM.parse dC8.path (FM.serialize dC8) ≠ .ok dC8 ∧
    FM.parse dC8.path (FM.serialize dC8) = .ok { dC8 with body := "x".data } := by
  refine ⟨by decide, by decide, by decide⟩

/-- C8 as amended: for every Document with a non-empty reference map whose
body does not begin with a whitespace character (Unicode White_Space, the
set Rust's `trim_start` strips), decoding the encoded form reproduces it
exactly in slug, description, references, updated and body (the codec
itself is modelled from the spec as a round-trip-safe mapping
serialization; the whitespace restriction is forced by the decoder's
`trim_start` on the body, frontmatter.rs:143). -/
theorem C8_roundtrip_amended (d : Document)
    (hrefs : d.references ≠ [])
    (hbody : ∀ c ∈ d.body.head?, rustIsWhitespace c = false) :
    FM.parse d.path (FM.serialize d) = .ok d := by
  have htrim : trimStartL d.body = d.body := by
    cases hb : d.body with
    | nil => rfl
    | cons c t =>
      have hw : rustIsWhitespace c = false := hbody c (by rw [hb]; rfl)
      unfold trimStartL
      rw [hw]
      simp
  unfold FM.parse
  rw [extract_frontmatter_serialize, htrim]
  show FM.parse_with_frontmatter d.path (FM.joinLines (FM.fmLines d)) d.body = .ok d
  unfold FM.parse_with_frontmatter
  rw [yamlDecodeFM_enc d hrefs]

set_option maxRecDepth 10000 in
/-- Witness for the amended C8: a concrete two-reference document with a
non-whitespace-initial body round-trips exactly. -/
theorem C8_roundtrip_amended_witness : FM.parse dRT.path (FM.serialize dRT) = .ok dRT :=
  C8_roundtrip_amended dRT (by decide) (by decide)

/-- C4: for every document body, a backtick-quoted path occurring on a line
inside a fenced code region — a region delimited by lines whose
leading-whitespace-trimmed content starts with three backticks, the
delimiter lines themselves excluded — never appears in the scanner's
output: the output of `extract_paths` draws exactly from the candidates of
the lines outside fenced regions (`liveLines`, which omits both the fence
delimiter lines and the lines between them), so fenced lines contribute
nothing regardless of the body's other content. -/
theorem C4_fenced_region_paths_never_extracted (content p : List Char) :
    p ∈ extract_paths content ↔
      ∃ l ∈ liveLines false (rustLines content), isFence l = false ∧ p ∈ extractLine l := by
  rw [mem_extract_paths_iff, mem_scanLines_iff]
  constructor
  · rintro ⟨l, hl, hp⟩
    exact ⟨l, hl, liveLines_not_fence l false _ hl, hp⟩
  · rintro ⟨l, hl, _, hp⟩
    exact ⟨l, hl, hp⟩

/-- C5: the scanner's output is duplicate-free and lexicographically
sorted; every element is the `./`-stripped text of a path-like
single-backtick span (contains `/` or starts with `./`), so spans failing
that test contribute nothing; and a body mentioning both `src/a.rs` and
`./src/a.rs` yields the single entry `src/a.rs`.  Determinism across
repeated calls is inherent: the model is a pure function of the body. -/
theorem C5_scanner_output_sorted_dedup_pathlike :
    (∀ content : List Char,
      (extract_paths content).Sorted pathLe ∧
      (extract_paths content).Nodup ∧
      ∀ p ∈ extract_paths content, ∃ c, is_path_like c = true ∧ p = normalize_path c) ∧
    extract_paths "See `src/a.rs` and `./src/a.rs`.".data = ["src/a.rs".data] := by
  constructor
  · intro content
    refine ⟨sorted_sortL _, ((perm_sortL _).nodup_iff).mpr (List.nodup_dedup _), ?_⟩
    intro p hp
    rcases (mem_scanLines_iff p false _).mp ((mem_extract_paths_iff p content).mp hp)
      with ⟨l, _, hpl⟩
    exact mem_extractLineF_shape p l.length l hpl
  · decide

end Context

-- quick sanity examples (mirroring the Rust unit tests)
example : Context.extract_paths "text with `src/foo.rs`".data = ["src/foo.rs".data] := by decide
example : Context.extract_paths "with `./src/bar.rs`".data = ["src/bar.rs".data] := by decide
example : Context.extract_paths "```rust\n`ignored.rs`\n```".data = [] := by decide
example : Context.extract_paths "`grep` and `--help`".data = [] := by decide
example : Context.extract_paths "multiple `a/b.rs` and `c/d.rs`".data
    = ["a/b.rs".data, "c/d.rs".data] := by decide
example : Context.extract_paths "use ``src/path.rs`` for something".data = [] := by decide
example : Context.extract_paths "`a/b.rs` and `a/b.rs`".data = ["a/b.rs".data] := by decide
